import Mathlib

/-!
Shallow embedding of the spaced-repetition code of this repository:
`src/agents/srs.py`, `src/agents/session_optimized_srs.py`,
`src/agents/vocab_instructor/simple_effectiveness_analyzer.py` and
`src/agents/vocab_instructor/vocab_store.py`.  Python floats are modelled
as rationals, Python ints as `Int`/`Nat`.
-/

namespace SRS

/-- Python's built-in `round` on a float: round to the nearest integer,
ties to even (banker's rounding), modelled on `ℚ`. -/
def pyRound (x : ℚ) : ℤ :=
  let f := ⌊x⌋
  let r := x - (f : ℚ)
  if r < 1/2 then f
  else if 1/2 < r then f + 1
  else if f % 2 = 0 then f else f + 1

/-- Round half away from zero on `ℚ`, the rounding mode named by the spec. -/
def roundHalfAwayFromZero (x : ℚ) : ℤ :=
  if 0 ≤ x then ⌊x + 1/2⌋ else ⌈x - 1/2⌉

/-- The SM-2 ease-factor increment `0.1 - (5 - q) * (0.08 + (5 - q) * 0.02)`
from `srs.py` line 51. -/
def efDelta (q : ℤ) : ℚ :=
  1/10 - ((5 : ℚ) - (q : ℚ)) * (8/100 + ((5 : ℚ) - (q : ℚ)) * (2/100))

/-- `srs.py` `update(card, quality)`: the classic SM-2 update.  Input is the
card's ease factor, interval (days) and repetition count together with the
response quality; output is the new `(EF, interval, repetitions)`. -/
def update (ef : ℚ) (interval reps : ℤ) (quality : ℤ) : ℚ × ℤ × ℤ :=
  let q := max 0 (min 5 quality)
  let newEf := max (13/10) (ef + efDelta q)
  if q < 3 then
    (newEf, 1, 0)
  else
    let newReps := reps + 1
    let newInterval : ℤ :=
      if newReps = 1 then 1
      else if newReps = 2 then 6
      else pyRound ((interval : ℚ) * newEf)
    (newEf, newInterval, newReps)

/-- The claim's description of the classic update for quality already in
`[0,5]`, with the rounding step made explicit so the rounding mode can be
compared against the code. -/
def classicUpdateSpec (rnd : ℚ → ℤ) (ef : ℚ) (interval reps : ℤ) (quality : ℤ) :
    ℚ × ℤ × ℤ :=
  let newEf := max (13/10) (ef + efDelta quality)
  if quality < 3 then
    (newEf, 1, 0)
  else
    let newReps := reps + 1
    let newInterval : ℤ :=
      if newReps = 1 then 1
      else if newReps = 2 then 6
      else rnd ((interval : ℚ) * newEf)
    (newEf, newInterval, newReps)

/-- `srs.py` `calculate_quality(correct_uses, total_uses)`. -/
def calculate_quality (correct_uses total_uses : ℕ) : ℕ :=
  if total_uses = 0 then 0
  else
    let ratio : ℚ := (correct_uses : ℚ) / (total_uses : ℚ)
    if ratio = 1 then 5
    else if ratio ≥ 9/10 then 4
    else if ratio ≥ 7/10 then 3
    else if ratio ≥ 1/2 then 2
    else if ratio ≥ 3/10 then 1
    else 0

/-- The claim's threshold description of `qualityFromRatio`: descending
inclusive thresholds on the ratio, `totalUses = 0 ↦ 0`. -/
def qualityFromRatioSpec (correct_uses total_uses : ℕ) : ℕ :=
  if total_uses = 0 then 0
  else
    let ratio : ℚ := (correct_uses : ℚ) / (total_uses : ℚ)
    if ratio ≥ 1 then 5
    else if ratio ≥ 9/10 then 4
    else if ratio ≥ 7/10 then 3
    else if ratio ≥ 1/2 then 2
    else if ratio ≥ 3/10 then 1
    else 0

end SRS

namespace SessionOpt

/-- The `base_intervals` dict of `session_optimized_srs.py` together with
Python's `dict.get(key, default)`: minutes for repetition counts 0–7,
`default` otherwise. -/
def baseLookup (reps : ℕ) (default : ℕ) : ℕ :=
  match reps with
  | 0 => 5
  | 1 => 20
  | 2 => 60
  | 3 => 240
  | 4 => 1440
  | 5 => 4320
  | 6 => 10080
  | 7 => 43200
  | _ => default

/-- `session_optimized_srs.py` `calculate_session_intervals(repetitions,
quality)`: next review interval in minutes.  Python `int(x)` on the
non-negative product is `⌊x⌋`. -/
def calculate_session_intervals (reps : ℕ) (quality : ℤ) : ℤ :=
  let base := baseLookup reps 43200
  if quality ≥ 4 then
    ⌊(base : ℚ) * 1⌋
  else if quality = 3 then
    ⌊(base : ℚ) * (8/10)⌋
  else if quality = 2 then
    if reps ≥ 4 then
      let demoted := reps - 2
      ⌊(baseLookup demoted 5 : ℚ) * (6/10)⌋
    else
      ⌊(base : ℚ) * (6/10)⌋
  else
    if reps ≥ 2 then
      ⌊(baseLookup 0 5 : ℚ) * (3/10)⌋
    else
      ⌊(base : ℚ) * (3/10)⌋

/-- The claim's reading of `calculate_session_intervals`, in which the
re-lookup after a demotion uses the same table description as the first
lookup, whose default is 43200. -/
def sessionIntervalClaim (reps : ℕ) (quality : ℤ) : ℤ :=
  let base := baseLookup reps 43200
  if quality ≥ 4 then
    ⌊(base : ℚ) * 1⌋
  else if quality = 3 then
    ⌊(base : ℚ) * (8/10)⌋
  else if quality = 2 then
    if reps ≥ 4 then
      let demoted := max 0 (reps - 2)
      ⌊(baseLookup demoted 43200 : ℚ) * (6/10)⌋
    else
      ⌊(base : ℚ) * (6/10)⌋
  else
    if reps ≥ 2 then
      ⌊(baseLookup 0 43200 : ℚ) * (3/10)⌋
    else
      ⌊(base : ℚ) * (3/10)⌋

/-- The amended claim: identical, except that the re-lookup after a demotion
uses default 5 (the code's `base_intervals.get(_, 5)`). -/
def sessionIntervalAmended (reps : ℕ) (quality : ℤ) : ℤ :=
  let base := baseLookup reps 43200
  if quality ≥ 4 then
    ⌊(base : ℚ) * 1⌋
  else if quality = 3 then
    ⌊(base : ℚ) * (8/10)⌋
  else if quality = 2 then
    if reps ≥ 4 then
      let demoted := max 0 (reps - 2)
      ⌊(baseLookup demoted 5 : ℚ) * (6/10)⌋
    else
      ⌊(base : ℚ) * (6/10)⌋
  else
    if reps ≥ 2 then
      ⌊(baseLookup 0 5 : ℚ) * (3/10)⌋
    else
      ⌊(base : ℚ) * (3/10)⌋

/-- Word statistics used by `session_optimized_srs.py`; all times are epoch
milliseconds, as Python ints. -/
structure WordData where
  total_uses : ℤ
  correct_uses : ℤ
  next_due : ℤ
  repetitions : ℤ
  time_last_seen : ℤ
deriving DecidableEq, Repr

/-- Hours between two epoch-millisecond timestamps, as an exact rational:
`(a - b) / (1000 * 60 * 60)`. -/
def hoursBetween (a b : ℤ) : ℚ := ((a : ℚ) - (b : ℚ)) / 3600000

/-- Term 1 of `get_review_priority_score`: the overdue bonus. -/
def overdueTerm (w : WordData) (now : ℤ) : ℚ :=
  if w.next_due ≤ now then
    100 + min (hoursBetween now w.next_due * 10) 200
  else 0

/-- Term 2: the 20–28 hour (24h-retention) window bonus. -/
def retentionWindowTerm (w : WordData) (now : ℤ) : ℚ :=
  let t := hoursBetween now w.time_last_seen
  if 20 ≤ t ∧ t ≤ 28 then 150 else 0

/-- Term 3: the low-repetition (new learning) bonus. -/
def lowRepTerm (w : WordData) : ℚ :=
  if w.repetitions ≤ 4 then ((5 : ℚ) - (w.repetitions : ℚ)) * 20 else 0

/-- Term 4: the poor-performance bonus. -/
def strugglingTerm (w : WordData) : ℚ :=
  if 0 < w.total_uses then
    let accuracy : ℚ := (w.correct_uses : ℚ) / (w.total_uses : ℚ)
    if accuracy < 7/10 then (1 - accuracy) * 50 else 0
  else 0

/-- Term 5: the recent-activity (session continuity) bonus. -/
def recentTerm (w : WordData) (now : ℤ) : ℚ :=
  if hoursBetween now w.time_last_seen ≤ 2 then 30 else 0

/-- `session_optimized_srs.py` `get_review_priority_score(word_data,
current_time)`: the sum of the five priority terms. -/
def get_review_priority_score (w : WordData) (now : ℤ) : ℚ :=
  overdueTerm w now + retentionWindowTerm w now + lowRepTerm w
    + strugglingTerm w + recentTerm w now

/-- `session_optimized_srs.py` `should_review_in_session(word_data,
current_time, session_start)`. -/
def should_review_in_session (w : WordData) (now sessionStart : ℤ) : Bool :=
  if w.next_due ≤ now then true
  else if w.time_last_seen ≥ sessionStart then true
  else if 20 ≤ hoursBetween now w.time_last_seen
          ∧ hoursBetween now w.time_last_seen ≤ 28 then true
  else if w.repetitions ≤ 3 ∧ hoursBetween w.next_due now ≤ 6 then true
  else false

end SessionOpt

namespace Expanding

/-- The fixed retrieval-offset schedule of
`simple_effectiveness_analyzer.py` (minutes from first exposure). -/
def retrievalSchedule : List ℤ := [2, 5, 8, 12, 16, 20]

/-- `simple_effectiveness_analyzer.py` `_calculate_srs_parameters`, as a pure
function of the stored `(EF, interval, repetitions)` and the input quality
(1–5 scale): returns the new `(EF, interval, repetitions)`.  Python's
`interval // 2` on the non-negative interval is `Int` Euclidean division
by 2. -/
def calcSrsParameters (ef : ℚ) (interval : ℤ) (reps : ℕ) (quality : ℤ) :
    ℚ × ℤ × ℕ :=
  let adjusted := quality - 1
  let newEf := max (13/10) (ef + (1/10) * ((adjusted : ℚ) - 2))
  if reps < retrievalSchedule.length then
    let nextPoint := retrievalSchedule.getD reps 0
    let sessionInterval : ℤ :=
      if 0 < reps then nextPoint - retrievalSchedule.getD (reps - 1) 0
      else nextPoint
    let adjInterval : ℤ :=
      if adjusted < 3 then max 1 (sessionInterval / 2) else sessionInterval
    (newEf, adjInterval, reps + 1)
  else
    (newEf, if adjusted ≥ 3 then 1440 else 720, reps + 1)

/-- Run a sequence of reviews with the given qualities, starting from the
given `(EF, interval, repetitions)` state; returns the successive output
states. -/
def runUpdates (s : ℚ × ℤ × ℕ) : List ℤ → List (ℚ × ℤ × ℕ)
  | [] => []
  | q :: rest =>
    let s2 := calcSrsParameters s.1 s.2.1 s.2.2 q
    s2 :: runUpdates s2 rest

end Expanding

namespace Store

/-- A vocabulary record as used by `get_due_words`: the word and its
`next_due` timestamp (epoch seconds, a Python int). -/
structure Row where
  word : String
  next_due : ℤ
deriving DecidableEq, Repr

/-- Stable insertion of a row into a list sorted by `next_due`: the new row
goes before the first strictly later row, hence after earlier-inserted rows
with the same `next_due`. -/
def insertByDue (r : Row) : List Row → List Row
  | [] => [r]
  | x :: xs =>
    if x.next_due < r.next_due then x :: insertByDue r xs else r :: x :: xs

/-- Stable sort by `next_due`, modelling Python's stable `list.sort` with key
`int(x['next_due'])` in `get_due_words`: rows with equal `next_due` keep
their stored order. -/
def sortByDue : List Row → List Row
  | [] => []
  | x :: xs => insertByDue x (sortByDue xs)

/-- `vocab_store.py` `VocabularyStore.get_due_words`: filter the rows due at
`now`, sort ascending by `next_due` (stable), truncate to `limit`. -/
def get_due_words (data : List Row) (now : ℤ) (limit : ℕ) : List Row :=
  (sortByDue (data.filter (fun r => r.next_due ≤ now))).take limit

/-- Lowercase an ASCII letter, as Python's `str.lower` does on the ASCII
range. -/
def lowerChar (c : Char) : Char :=
  if 65 ≤ c.toNat ∧ c.toNat ≤ 90 then Char.ofNat (c.toNat + 32) else c

/-- Python's `str.lower()` on an ASCII string: lowercase every character. -/
def lowerStr (s : String) : String := String.mk (s.data.map lowerChar)

/-- Strict lexicographic order on character lists (by code point). -/
def charListLt : List Char → List Char → Bool
  | [], [] => false
  | [], _ :: _ => true
  | _ :: _, [] => false
  | a :: as, b :: bs =>
    if a.toNat < b.toNat then true
    else if b.toNat < a.toNat then false
    else charListLt as bs

/-- Strict lexicographic order on `(next_due, word)`, used by the claim's
tie-break-by-identifier description. -/
def lexLt (a b : Row) : Prop :=
  a.next_due < b.next_due
    ∨ (a.next_due = b.next_due ∧ charListLt a.word.data b.word.data = true)

instance (a b : Row) : Decidable (lexLt a b) := by
  unfold lexLt
  infer_instance

/-- Insertion into a list sorted by `(next_due, word)`. -/
def insertByDueWord (r : Row) : List Row → List Row
  | [] => [r]
  | x :: xs =>
    if lexLt x r then x :: insertByDueWord r xs else r :: x :: xs

/-- Sort by `(next_due, word)`. -/
def sortByDueWord : List Row → List Row
  | [] => []
  | x :: xs => insertByDueWord x (sortByDueWord xs)

/-- The claim's description of the due selector: ascending by `next_due`
with ties broken by the word identifier. -/
def selectDueClaim (data : List Row) (now : ℤ) (limit : ℕ) : List Row :=
  (sortByDueWord (data.filter (fun r => r.next_due ≤ now))).take limit

/-- A CSV row of the store as an association list of column name to value,
in column order (a Python dict preserves insertion order). -/
def lookupF : List (String × String) → String → Option String
  | [], _ => none
  | (k, v) :: rest, key => if k = key then some v else lookupF rest key

/-- `row[key] = value` on a Python dict: overwrite in place if the key
exists, append otherwise. -/
def setKey : List (String × String) → String → String → List (String × String)
  | [], k, v => [(k, v)]
  | (k1, v1) :: rest, k, v =>
    if k1 = k then (k1, v) :: rest else (k1, v1) :: setKey rest k v

/-- Apply the supplied field changes (the `**kwargs` of `update_word`) to a
row, in order. -/
def applyKvs (kvs : List (String × String)) (row : List (String × String)) :
    List (String × String) :=
  kvs.foldl (fun r kv => setKey r kv.1 kv.2) row

/-- The `word` column of a row. -/
def rowWord (row : List (String × String)) : String :=
  (lookupF row "word").getD ""

/-- `vocab_store.py` `VocabularyStore.update_word(word, **kwargs)`: update
the supplied fields of the first row whose word matches case-insensitively,
leave everything else as read; if no row matches, write the data back
unchanged. -/
def update_word (data : List (List (String × String))) (word : String)
    (kvs : List (String × String)) : List (List (String × String)) :=
  match data with
  | [] => []
  | row :: rest =>
    if lowerStr (rowWord row) = lowerStr word then applyKvs kvs row :: rest
    else row :: update_word rest word kvs

lemma mem_insertByDue {x r : Row} {l : List Row} :
    x ∈ insertByDue r l ↔ x = r ∨ x ∈ l := by
  induction l with
  | nil => simp [insertByDue]
  | cons y ys ih =>
    simp only [insertByDue]
    split
    · simp only [List.mem_cons, ih]
      tauto
    · simp [List.mem_cons]

lemma pairwise_insertByDue {r : Row} {l : List Row}
    (h : l.Pairwise (fun a b => a.next_due ≤ b.next_due)) :
    (insertByDue r l).Pairwise (fun a b => a.next_due ≤ b.next_due) := by
  induction l with
  | nil => simp [insertByDue]
  | cons y ys ih =>
    rw [List.pairwise_cons] at h
    simp only [insertByDue]
    split
    · rename_i hlt
      rw [List.pairwise_cons]
      refine ⟨?_, ih h.2⟩
      intro z hz
      rcases mem_insertByDue.mp hz with rfl | hz2
      · exact le_of_lt hlt
      · exact h.1 z hz2
    · rename_i hge
      rw [List.pairwise_cons]
      refine ⟨?_, List.pairwise_cons.mpr h⟩
      intro z hz
      rcases List.mem_cons.mp hz with rfl | hz2
      · exact not_lt.mp hge
      · exact le_trans (not_lt.mp hge) (h.1 z hz2)

lemma mem_sortByDue {x : Row} {l : List Row} : x ∈ sortByDue l ↔ x ∈ l := by
  induction l with
  | nil => simp [sortByDue]
  | cons y ys ih => simp [sortByDue, mem_insertByDue, ih]

lemma pairwise_sortByDue (l : List Row) :
    (sortByDue l).Pairwise (fun a b => a.next_due ≤ b.next_due) := by
  induction l with
  | nil => simp [sortByDue]
  | cons y ys ih => exact pairwise_insertByDue ih

lemma filter_insertByDue (x : Row) (l : List Row) (d : ℤ) :
    (insertByDue x l).filter (fun r => r.next_due = d)
      = if x.next_due = d then x :: l.filter (fun r => r.next_due = d)
        else l.filter (fun r => r.next_due = d) := by
  induction l with
  | nil =>
    by_cases hx : x.next_due = d <;> simp [insertByDue, hx]
  | cons y ys ih =>
    simp only [insertByDue]
    split
    · rename_i hlt
      by_cases hx : x.next_due = d
      · have hy : ¬ y.next_due = d := by omega
        simp [List.filter_cons, hx, hy, ih]
      · by_cases hy : y.next_due = d <;>
          simp [List.filter_cons, hx, hy, ih]
    · by_cases hx : x.next_due = d <;> simp [List.filter_cons, hx]

lemma sortByDue_filter (l : List Row) (d : ℤ) :
    (sortByDue l).filter (fun r => r.next_due = d)
      = l.filter (fun r => r.next_due = d) := by
  induction l with
  | nil => rfl
  | cons x xs ih =>
    simp only [sortByDue, filter_insertByDue, ih, List.filter_cons]
    by_cases hx : x.next_due = d <;> simp [hx]

lemma lookupF_setKey_ne (row : List (String × String)) (k1 v k : String)
    (h : k1 ≠ k) : lookupF (setKey row k1 v) k = lookupF row k := by
  induction row with
  | nil => simp [setKey, lookupF, h]
  | cons p rest ih =>
    obtain ⟨pk, pv⟩ := p
    by_cases hpk : pk = k1
    · subst hpk
      simp only [setKey, if_pos rfl, lookupF, if_neg h]
    · simp only [setKey, if_neg hpk, lookupF]
      by_cases hk : pk = k
      · simp [hk]
      · simp [hk, ih]

lemma lookupF_applyKvs (kvs row : List (String × String)) (k : String)
    (h : ∀ kv ∈ kvs, kv.1 ≠ k) :
    lookupF (applyKvs kvs row) k = lookupF row k := by
  induction kvs generalizing row with
  | nil => rfl
  | cons kv rest ih =>
    simp only [applyKvs, List.foldl_cons] at *
    rw [ih _ (fun kv2 hm => h kv2 (List.mem_cons_of_mem _ hm))]
    exact lookupF_setKey_ne row kv.1 kv.2 k (h kv (List.mem_cons_self _ _))

lemma update_word_no_match (data : List (List (String × String)))
    (word : String) (kvs : List (String × String))
    (h : ∀ row ∈ data, lowerStr (rowWord row) ≠ lowerStr word) :
    update_word data word kvs = data := by
  induction data with
  | nil => rfl
  | cons row rest ih =>
    simp only [update_word]
    rw [if_neg (h row (List.mem_cons_self _ _)),
      ih (fun r hr => h r (List.mem_cons_of_mem _ hr))]

lemma update_word_first_match (pre : List (List (String × String)))
    (row : List (String × String)) (post : List (List (String × String)))
    (word : String) (kvs : List (String × String))
    (hpre : ∀ p ∈ pre, lowerStr (rowWord p) ≠ lowerStr word)
    (hrow : lowerStr (rowWord row) = lowerStr word) :
    update_word (pre ++ row :: post) word kvs
      = pre ++ applyKvs kvs row :: post := by
  induction pre with
  | nil => simp only [List.nil_append, update_word, if_pos hrow]
  | cons p ps ih =>
    simp only [List.cons_append, update_word]
    rw [if_neg (hpre p (List.mem_cons_self _ _))]
    exact congrArg (fun t => p :: t)
      (ih (fun q hq => hpre q (List.mem_cons_of_mem _ hq)))

end Store

/-! ## Theorems -/

/-- C1 counterexample: at ease factor 2.5, interval 1, repetitions 2 and
quality 4 (all exactly representable, so the float code computes the same
values), the classic update returns interval 2 — Python `round` rounds the
tie 2.5 to even — while rounding half away from zero on the same product
gives 3, so the claim's rounding description is false here. -/
theorem classic_round_counterexample :
    SRS.update (5/2) 1 2 4 = (5/2, 2, 3)
    ∧ SRS.classicUpdateSpec SRS.roundHalfAwayFromZero (5/2) 1 2 4 = (5/2, 3, 3)
    ∧ ((5/2 : ℚ), (2 : ℤ), (3 : ℤ)) ≠ ((5/2 : ℚ), (3 : ℤ), (3 : ℤ)) := by
  refine ⟨?_, ?_, ?_⟩
  · simp only [SRS.update, SRS.efDelta, SRS.pyRound]
    norm_num [max_def, min_def]
  · simp only [SRS.classicUpdateSpec, SRS.efDelta, SRS.roundHalfAwayFromZero]
    norm_num [max_def]
  · simp only [ne_eq, Prod.mk.injEq]
    norm_num

/-- C1 (amended): for quality in `[0,5]`, the classic SM-2 update follows
the claimed branch structure — reset on quality < 3, otherwise increment
repetitions with interval 1, 6, or the previous interval times the new ease
factor rounded — with the rounding being Python's round-half-to-even, not
round half away from zero. -/
theorem classic_update_amended (ef : ℚ) (interval reps quality : ℤ)
    (h0 : 0 ≤ quality) (h5 : quality ≤ 5) :
    SRS.update ef interval reps quality
      = SRS.classicUpdateSpec SRS.pyRound ef interval reps quality := by
  unfold SRS.update SRS.classicUpdateSpec
  rw [min_eq_right h5, max_eq_right h0]

/-- Witness for `classic_update_amended` at ease factor 2.5, interval 1,
repetitions 2, quality 4. -/
theorem classic_update_amended_witness :
    (0 : ℤ) ≤ 4 ∧ (4 : ℤ) ≤ 5
    ∧ SRS.update (5/2) 1 2 4 = SRS.classicUpdateSpec SRS.pyRound (5/2) 1 2 4 :=
  ⟨by decide, by decide, classic_update_amended (5/2) 1 2 4 (by decide) (by decide)⟩

/-- C2: the classic update clamps quality to `[0,5]`, applies the SM-2
ease-factor formula followed by the 1.3 floor identically on both branches,
and therefore always returns an ease factor at least 1.3. -/
theorem classic_ef_floor (ef : ℚ) (interval reps quality : ℤ) :
    (SRS.update ef interval reps quality).1
      = max (13/10) (ef + SRS.efDelta (max 0 (min 5 quality)))
    ∧ (13/10 : ℚ) ≤ (SRS.update ef interval reps quality).1 := by
  simp only [SRS.update]
  constructor
  · split <;> rfl
  · split <;> exact le_max_left _ _

/-- C10: the expanding-retrieval update always returns a repetition count
exactly one greater than the input, on both the in-session branch
(repetitions < 6) and the post-session branch, for every quality. -/
theorem expanding_reps_increment (ef : ℚ) (interval : ℤ) (reps : ℕ)
    (quality : ℤ) :
    (Expanding.calcSrsParameters ef interval reps quality).2.2 = reps + 1 := by
  unfold Expanding.calcSrsParameters
  split <;> rfl

/-- C4: from a fresh record (EF 2.5, interval 1, repetitions 0), six
quality-4 expanding-retrieval reviews return intervals 2, 3, 3, 4, 4, 4
minutes with repetitions 1 through 6, and a seventh review with quality 5
returns interval 1440. -/
theorem expanding_schedule_run :
    (Expanding.runUpdates (5/2, 1, 0) [4, 4, 4, 4, 4, 4, 5]).map
        (fun s => (s.2.1, s.2.2))
      = [(2, 1), (3, 2), (3, 3), (4, 4), (4, 5), (4, 6), (1440, 7)] := by
  decide

/-- C3 counterexample: at repetitions 10 and quality 2 the code demotes to
repetitions 8 and re-looks the base interval up with default 5 — giving
`int(5 * 0.6) = 3` — while the claim's table (default 43200 for repetitions
at least 8) would give 25920. -/
theorem session_interval_counterexample :
    SessionOpt.calculate_session_intervals 10 2 = 3
    ∧ SessionOpt.sessionIntervalClaim 10 2 = 25920
    ∧ (3 : ℤ) ≠ 25920 := by
  refine ⟨?_, ?_, by decide⟩
  · simp only [SessionOpt.calculate_session_intervals, SessionOpt.baseLookup]
    norm_num
  · simp only [SessionOpt.sessionIntervalClaim, SessionOpt.baseLookup]
    norm_num

/-- C3 (amended): the session-optimized interval is the floor of the base
interval times the first-matching-rule multiplier, with base interval looked
up from the pre-update repetitions (default 43200) and, after a demotion,
re-looked up with default 5; for repetitions 4 and any quality at least 4
the result is 1440. -/
theorem session_interval_amended (reps : ℕ) (quality : ℤ) :
    SessionOpt.calculate_session_intervals reps quality
      = SessionOpt.sessionIntervalAmended reps quality
    ∧ (4 ≤ quality → SessionOpt.calculate_session_intervals 4 quality = 1440) := by
  constructor
  · simp only [SessionOpt.calculate_session_intervals,
      SessionOpt.sessionIntervalAmended, Nat.zero_max]
  · intro h4
    simp only [SessionOpt.calculate_session_intervals, SessionOpt.baseLookup]
    rw [if_pos h4]
    norm_num

/-- Witness for `session_interval_amended` at repetitions 4, quality 4. -/
theorem session_interval_amended_witness :
    (4 : ℤ) ≤ 4 ∧ SessionOpt.calculate_session_intervals 4 4 = 1440 :=
  ⟨by decide, (session_interval_amended 4 4).2 (by decide)⟩

/-- C6: a word is eligible for in-session review exactly when it is overdue,
or was last seen during the current session, or its time since last seen is
in the 20–28 hour window, or it has at most 3 repetitions and is due within
the next 6 hours (in epoch milliseconds, 21600000). -/
theorem should_review_iff (w : SessionOpt.WordData) (now sessionStart : ℤ) :
    SessionOpt.should_review_in_session w now sessionStart = true
      ↔ (w.next_due ≤ now
        ∨ sessionStart ≤ w.time_last_seen
        ∨ (20 ≤ SessionOpt.hoursBetween now w.time_last_seen
            ∧ SessionOpt.hoursBetween now w.time_last_seen ≤ 28)
        ∨ (w.repetitions ≤ 3 ∧ 0 ≤ w.next_due - now
            ∧ w.next_due - now ≤ 6 * 3600000)) := by
  have hms : SessionOpt.hoursBetween w.next_due now ≤ 6
      ↔ w.next_due - now ≤ 6 * 3600000 := by
    unfold SessionOpt.hoursBetween
    rw [div_le_iff₀ (by norm_num : (0:ℚ) < 3600000)]
    constructor <;> intro h
    · have h2 : ((w.next_due - now : ℤ) : ℚ) ≤ 6 * 3600000 := by push_cast; linarith
      exact_mod_cast h2
    · have h2 : ((w.next_due - now : ℤ) : ℚ) ≤ 6 * 3600000 := by exact_mod_cast h
      push_cast at h2 ⊢
      linarith
  unfold SessionOpt.should_review_in_session
  split_ifs with h1 h2 h3 h4
  · exact iff_of_true rfl (Or.inl h1)
  · exact iff_of_true rfl (Or.inr (Or.inl h2))
  · exact iff_of_true rfl (Or.inr (Or.inr (Or.inl h3)))
  · exact iff_of_true rfl
      (Or.inr (Or.inr (Or.inr ⟨h4.1, by omega, hms.mp h4.2⟩)))
  · refine iff_of_false (by simp) ?_
    rintro (h | h | h | ⟨hreps, hnn, hle⟩)
    · exact h1 h
    · exact h2 h
    · exact h3 h
    · exact h4 ⟨hreps, hms.mpr hle⟩

/-- C7: for an overdue word the overdue term of the priority score is
`100 + min(overdueHours * 10, 200)`, hence at most 300; and a word overdue
by exactly 5 hours with no other term firing (uses recorded, accuracy at
least 0.7, repetitions at least 5, last seen more than 2 hours ago and
outside the 20–28 hour window) scores exactly 150. -/
theorem priority_overdue_score (w : SessionOpt.WordData) (now : ℤ)
    (h : w.next_due ≤ now) :
    SessionOpt.overdueTerm w now
        = 100 + min (SessionOpt.hoursBetween now w.next_due * 10) 200
    ∧ SessionOpt.overdueTerm w now ≤ 300
    ∧ (now - w.next_due = 5 * 3600000
        → 0 < w.total_uses
        → (7/10 : ℚ) ≤ (w.correct_uses : ℚ) / (w.total_uses : ℚ)
        → 5 ≤ w.repetitions
        → 2 < SessionOpt.hoursBetween now w.time_last_seen
        → ¬(20 ≤ SessionOpt.hoursBetween now w.time_last_seen
            ∧ SessionOpt.hoursBetween now w.time_last_seen ≤ 28)
        → SessionOpt.get_review_priority_score w now = 150) := by
  have hterm : SessionOpt.overdueTerm w now
      = 100 + min (SessionOpt.hoursBetween now w.next_due * 10) 200 := by
    unfold SessionOpt.overdueTerm
    rw [if_pos h]
  refine ⟨hterm, ?_, ?_⟩
  · rw [hterm]
    have hmin := min_le_right (SessionOpt.hoursBetween now w.next_due * 10) (200 : ℚ)
    linarith
  · intro h5 htu hacc hreps hrecent hwindow
    have hob : SessionOpt.hoursBetween now w.next_due = 5 := by
      unfold SessionOpt.hoursBetween
      have hc : ((now : ℚ) - (w.next_due : ℚ)) = 5 * 3600000 := by
        exact_mod_cast h5
      rw [hc]
      norm_num
    simp only [SessionOpt.get_review_priority_score,
      SessionOpt.retentionWindowTerm, SessionOpt.lowRepTerm,
      SessionOpt.strugglingTerm, SessionOpt.recentTerm]
    rw [hterm, hob]
    rw [if_neg hwindow, if_neg (by omega : ¬ w.repetitions ≤ 4),
      if_pos htu, if_neg (not_lt.mpr hacc), if_neg (not_le.mpr hrecent)]
    norm_num [min_def]

/-- Witness for `priority_overdue_score`: a word with 8 of 10 correct uses,
due at epoch 0, 5 repetitions, last seen at epoch 0, queried 5 hours
(18000000 ms) later, scores exactly 150. -/
theorem priority_overdue_score_witness :
    SessionOpt.get_review_priority_score ⟨10, 8, 0, 5, 0⟩ 18000000 = 150 :=
  (priority_overdue_score ⟨10, 8, 0, 5, 0⟩ 18000000 (by decide)).2.2
    (by decide) (by decide) (by norm_num) (by decide)
    (by norm_num [SessionOpt.hoursBetween])
    (by norm_num [SessionOpt.hoursBetween])

/-- C8: for correct uses at most total uses, `calculate_quality` agrees with
the claim's descending inclusive threshold map on the exact ratio, and takes
the claimed values at the listed concrete inputs. -/
theorem calculate_quality_spec (cu tu : ℕ) (h : cu ≤ tu) :
    SRS.calculate_quality cu tu = SRS.qualityFromRatioSpec cu tu
    ∧ SRS.calculate_quality 10 10 = 5 ∧ SRS.calculate_quality 9 10 = 4
    ∧ SRS.calculate_quality 7 10 = 3 ∧ SRS.calculate_quality 5 10 = 2
    ∧ SRS.calculate_quality 3 10 = 1 ∧ SRS.calculate_quality 2 10 = 0
    ∧ SRS.calculate_quality 0 0 = 0 := by
  refine ⟨?_, ?_, ?_, ?_, ?_, ?_, ?_, ?_⟩
  · simp only [SRS.calculate_quality, SRS.qualityFromRatioSpec]
    rcases Nat.eq_zero_or_pos tu with h0 | h0
    · simp [h0]
    · have hne : ¬ tu = 0 := Nat.pos_iff_ne_zero.mp h0
      have htu : (0 : ℚ) < (tu : ℚ) := by exact_mod_cast h0
      have hle : (cu : ℚ) / (tu : ℚ) ≤ 1 := by
        rw [div_le_one htu]
        exact_mod_cast h
      rw [if_neg hne, if_neg hne]
      by_cases hr : (cu : ℚ) / (tu : ℚ) = 1
      · rw [if_pos hr, if_pos (ge_of_eq hr)]
      · rw [if_neg hr, if_neg (fun hge => hr (le_antisymm hle hge))]
  · norm_num [SRS.calculate_quality]
  · norm_num [SRS.calculate_quality]
  · norm_num [SRS.calculate_quality]
  · norm_num [SRS.calculate_quality]
  · norm_num [SRS.calculate_quality]
  · norm_num [SRS.calculate_quality]
  · norm_num [SRS.calculate_quality]

/-- Witness for `calculate_quality_spec` at 7 correct of 10 uses. -/
theorem calculate_quality_spec_witness :
    7 ≤ 10 ∧ SRS.calculate_quality 7 10 = SRS.qualityFromRatioSpec 7 10 :=
  ⟨by decide, (calculate_quality_spec 7 10 (by decide)).1⟩

/-- C5 counterexample: with rows zebra and apple both due at 0 and stored in
that order, the code's stable sort by `next_due` alone returns them in
stored order, while the claim's tie-break by word identifier would return
apple first. -/
theorem get_due_words_tiebreak_counterexample :
    Store.get_due_words [⟨"zebra", 0⟩, ⟨"apple", 0⟩] 0 2
      = [⟨"zebra", 0⟩, ⟨"apple", 0⟩]
    ∧ Store.selectDueClaim [⟨"zebra", 0⟩, ⟨"apple", 0⟩] 0 2
      = [⟨"apple", 0⟩, ⟨"zebra", 0⟩]
    ∧ ([⟨"zebra", 0⟩, ⟨"apple", 0⟩] : List Store.Row)
      ≠ [⟨"apple", 0⟩, ⟨"zebra", 0⟩] := by
  refine ⟨by decide, by decide, by decide⟩

/-- C5 (amended): the due selector returns only records due at the query
time, at most `limit` of them, ordered ascending by `next_due`; records
with equal `next_due` keep their stored order (Python's sort is stable),
rather than being reordered by the word identifier: for every due date `d`,
the sort leaves the subsequence of records with `next_due = d` exactly as
stored, and the returned list's records with `next_due = d` are a
subsequence of the stored ones in stored order. -/
theorem get_due_words_spec (data : List Store.Row) (now : ℤ) (limit : ℕ) :
    (∀ r ∈ Store.get_due_words data now limit, r.next_due ≤ now)
    ∧ (Store.get_due_words data now limit).length ≤ limit
    ∧ (Store.get_due_words data now limit).Pairwise
        (fun a b => a.next_due ≤ b.next_due)
    ∧ (∀ d : ℤ,
        (Store.sortByDue (data.filter (fun r => r.next_due ≤ now))).filter
            (fun r => r.next_due = d)
          = (data.filter (fun r => r.next_due ≤ now)).filter
              (fun r => r.next_due = d))
    ∧ (∀ d : ℤ,
        List.Sublist
          ((Store.get_due_words data now limit).filter
            (fun r => r.next_due = d))
          (data.filter (fun r => r.next_due = d))) := by
  refine ⟨?_, ?_, ?_, ?_, ?_⟩
  · intro r hr
    have h1 := List.mem_of_mem_take hr
    have h2 := Store.mem_sortByDue.mp h1
    have h3 := List.mem_filter.mp h2
    exact of_decide_eq_true h3.2
  · rw [Store.get_due_words, List.length_take]
    exact min_le_left _ _
  · exact List.Pairwise.sublist (List.take_sublist _ _)
      (Store.pairwise_sortByDue _)
  · intro d
    exact Store.sortByDue_filter _ d
  · intro d
    simp only [Store.get_due_words]
    have h1 := List.Sublist.filter (fun r => decide (r.next_due = d))
      (List.take_sublist limit
        (Store.sortByDue (data.filter fun r => decide (r.next_due ≤ now))))
    rw [Store.sortByDue_filter] at h1
    exact h1.trans (List.Sublist.filter _ (List.filter_sublist data))

/-- C9: `update_word` changes only the supplied fields of the first record
whose word matches the key case-insensitively, leaving its other fields and
every other record unchanged; if no record matches, the stored collection
is returned unchanged and no record is created. -/
theorem update_word_spec (data : List (List (String × String)))
    (word : String) (kvs : List (String × String)) :
    ((∀ row ∈ data, Store.lowerStr (Store.rowWord row) ≠ Store.lowerStr word)
      → Store.update_word data word kvs = data)
    ∧ (∀ pre row post,
        data = pre ++ row :: post
        → (∀ p ∈ pre, Store.lowerStr (Store.rowWord p) ≠ Store.lowerStr word)
        → Store.lowerStr (Store.rowWord row) = Store.lowerStr word
        → Store.update_word data word kvs
            = pre ++ Store.applyKvs kvs row :: post
          ∧ ∀ k, (∀ kv ∈ kvs, kv.1 ≠ k)
              → Store.lookupF (Store.applyKvs kvs row) k
                  = Store.lookupF row k) := by
  refine ⟨Store.update_word_no_match data word kvs, ?_⟩
  intro pre row post hdata hpre hrow
  subst hdata
  exact ⟨Store.update_word_first_match pre row post word kvs hpre hrow,
    fun k hk => Store.lookupF_applyKvs kvs row k hk⟩

/-- Witness for `update_word_spec`: updating "Apple" with a new EF value in
a two-row store touches only the EF field of the apple row. -/
theorem update_word_spec_witness :
    Store.update_word
        [[("word", "zebra"), ("EF", "2.5")], [("word", "apple"), ("EF", "2.5")]]
        "Apple" [("EF", "2.6")]
      = [[("word", "zebra"), ("EF", "2.5")],
          Store.applyKvs [("EF", "2.6")] [("word", "apple"), ("EF", "2.5")]]
    ∧ Store.lookupF
        (Store.applyKvs [("EF", "2.6")] [("word", "apple"), ("EF", "2.5")])
        "word"
      = Store.lookupF [("word", "apple"), ("EF", "2.5")] "word" := by
  have h := (update_word_spec
      [[("word", "zebra"), ("EF", "2.5")], [("word", "apple"), ("EF", "2.5")]]
      "Apple" [("EF", "2.6")]).2
      [[("word", "zebra"), ("EF", "2.5")]]
      [("word", "apple"), ("EF", "2.5")] [] rfl (by decide) (by decide)
  exact ⟨h.1, h.2 "word" (by decide)⟩
